import Mathlib

/-!
Verification of the trema (exclusion-circle) point-cloud generator in
`src/main.js`.  The two core functions are `buildTremas` (multi-level
exclusion-circle builder) and `generatePointsFromTremas` (bounded-retry
rejection sampler).  JavaScript numbers are modelled as exact rationals
and the global random source `Math.random` is replaced by an explicit
draw stream `s : ℕ → ℚ` together with an index counter, so every
function becomes pure and executable.  Draw consumption mirrors the
source's evaluation order exactly.
-/

namespace Tremas

/-- One exclusion circle (`{cx, cy, r, level}` object of `buildTremas`). -/
structure Trema where
  cx : ℚ
  cy : ℚ
  r : ℚ
  level : ℕ
deriving Repr, DecidableEq

/-- `randRange(a,b) = a + (b-a)*rand()` applied to draw number `k`
of the stream `s` (`main.js` line 70). -/
def randRange (a b : ℚ) (s : ℕ → ℚ) (k : ℕ) : ℚ :=
  a + (b - a) * s k

/-- Per-level circle count (`main.js` line 82):
`Math.max(1, Math.floor(density * Math.pow(2, level+1) * 30))`. -/
def tremaCount (density : ℚ) (level : ℕ) : ℕ :=
  max 1 (Int.toNat ⌊density * 2 ^ (level + 1) * 30⌋)

/-- One circle of level `level` built from draws `k`, `k+1`, `k+2`
(`main.js` lines 84-88): `cx = randRange(-1,1)`, `cy = randRange(-1,1)`,
`r = levelRadius * (0.8 + 0.4*rand())` with `levelRadius = baseRadius * 0.5^level`. -/
def mkTrema (baseRadius : ℚ) (level : ℕ) (s : ℕ → ℚ) (k : ℕ) : Trema :=
  { cx := randRange (-1) 1 s k
    cy := randRange (-1) 1 s (k + 1)
    r := baseRadius * (1 / 2) ^ level * (4 / 5 + 2 / 5 * s (k + 2))
    level := level }

/-- The inner loop of `buildTremas` (lines 83-89): `n` circles of one
level, each consuming three draws. -/
def buildLevel (baseRadius : ℚ) (level : ℕ) (s : ℕ → ℚ) : ℕ → ℕ → List Trema
  | 0, _ => []
  | n + 1, k => mkTrema baseRadius level s k :: buildLevel baseRadius level s n (k + 3)

/-- The outer loop of `buildTremas` over the list of remaining levels,
threading the draw index. -/
def buildLevels (density baseRadius : ℚ) (s : ℕ → ℚ) : List ℕ → ℕ → List Trema
  | [], _ => []
  | L :: Ls, k =>
      buildLevel baseRadius L s (tremaCount density L) k ++
        buildLevels density baseRadius s Ls (k + 3 * tremaCount density L)

/-- `buildTremas(depth, density, baseRadius)` (`main.js` lines 73-92):
for each level `0 ≤ L < depth` push `tremaCount density L` circles. -/
def buildTremas (depth : ℕ) (density baseRadius : ℚ) (s : ℕ → ℚ) : List Trema :=
  buildLevels density baseRadius s (List.range depth) 0

/-- Squared distance from `(x,y)` to the center of circle `c`. -/
def dist2 (x y : ℚ) (c : Trema) : ℚ :=
  (x - c.cx) * (x - c.cx) + (y - c.cy) * (y - c.cy)

/-- The inside test of `main.js` line 110: strictly closer to the
center than the radius. -/
def insideCircle (x y : ℚ) (c : Trema) : Bool :=
  decide (dist2 x y c < c.r * c.r)

/-- The rejection scan of `main.js` lines 106-111: inside ANY circle. -/
def insideAny (x y : ℚ) (ts : List Trema) : Bool :=
  ts.any (insideCircle x y)

/-- The nearest-circle scan of `main.js` lines 118-124: fold over the
field keeping the strictly smallest squared distance seen so far,
starting from `minD = 1e9`, `nearLevel = 0`. -/
def nearScan (x y : ℚ) : List Trema → ℚ → ℕ → ℕ
  | [], _, nl => nl
  | c :: ts, minD, nl =>
      if dist2 x y c < minD then nearScan x y ts (dist2 x y c) c.level
      else nearScan x y ts minD nl

/-- `nearLevel` as computed by the source: scan with initial threshold
`1e9` and initial level `0`. -/
def nearLevel (x y : ℚ) (ts : List Trema) : ℕ :=
  nearScan x y ts (10 ^ 9) 0

/-- `Math.max(...tremas.map(t=>t.level))` for a non-empty field, and
`0` for an empty one (levels are naturals, so the fold with base `0`
agrees with the spread max on non-empty fields). -/
def maxLevel (ts : List Trema) : ℕ :=
  ts.foldr (fun c m => max c.level m) 0

/-- The divisor of `main.js` line 125:
`Math.max(1, tremas.length > 0 ? Math.max(...levels) : 1)`. -/
def levelDivisor (ts : List Trema) : ℕ :=
  if ts.isEmpty then 1 else max 1 (maxLevel ts)

/-- The `levelFactor` pushed for an accepted point at `(x,y)`
(`main.js` line 125). -/
def levelFactor (x y : ℚ) (ts : List Trema) : ℚ :=
  (nearLevel x y ts : ℚ) / (levelDivisor ts : ℚ)

/-- The three parallel output arrays of `generatePointsFromTremas`. -/
structure Batch where
  positions : List ℚ
  colors : List ℚ
  levels : List ℚ
deriving Repr, DecidableEq

/-- The accept branch of `main.js` lines 112-126 for a candidate drawn
at indices `k` (x) and `k+1` (y): push the position, push the three
color channels, push the levelFactor.  JS evaluates `cval` on line 115
(draw `k+2`) before the two `push` arguments of line 116 (draws `k+3`
and `k+4`), and pushes `cval` last. -/
def accept (ts : List Trema) (s : ℕ → ℚ) (k : ℕ) (acc : Batch) : Batch :=
  let x := randRange (-1) 1 s k
  let y := randRange (-1) 1 s (k + 1)
  let cval := 2 / 5 + 3 / 5 * s (k + 2)
  { positions := acc.positions ++ [x, y]
    colors := acc.colors ++ [1 / 5 + 3 / 5 * s (k + 3), 7 / 20 + 11 / 20 * s (k + 4), cval]
    levels := acc.levels ++ [levelFactor x y ts] }

/-- The while loop of `main.js` lines 101-127, with `fuel`
= `maxAttempts - attempts` remaining budget and `att` the attempts
made so far.  Each iteration draws `x` at index `k` and `y` at `k+1`;
an accepted iteration additionally consumes draws `k+2`, `k+3`, `k+4`
for the colors.  Returns the batch and the final attempt count. -/
def sampleLoop (ts : List Trema) (samples : ℕ) (s : ℕ → ℚ) :
    ℕ → ℕ → Batch → ℕ → Batch × ℕ
  | 0, _, acc, att => (acc, att)
  | fuel + 1, k, acc, att =>
      if acc.positions.length / 2 < samples then
        if insideAny (randRange (-1) 1 s k) (randRange (-1) 1 s (k + 1)) ts then
          sampleLoop ts samples s fuel (k + 2) acc (att + 1)
        else
          sampleLoop ts samples s fuel (k + 5) (accept ts s k acc) (att + 1)
      else (acc, att)

/-- `generatePointsFromTremas(tremas, samples)` (`main.js` lines 95-129)
together with the number of loop iterations (`attempts`) it performed:
`maxAttempts = samples * 10`, empty accumulators, draw index `0`. -/
def sampleRun (ts : List Trema) (samples : ℕ) (s : ℕ → ℚ) : Batch × ℕ :=
  sampleLoop ts samples s (samples * 10) 0 ⟨[], [], []⟩ 0

/-- The batch returned by `generatePointsFromTremas`. -/
def generatePointsFromTremas (ts : List Trema) (samples : ℕ) (s : ℕ → ℚ) : Batch :=
  (sampleRun ts samples s).1

/-- The flat positions array regrouped into consecutive `(x, y)` pairs. -/
def pointsOf : List ℚ → List (ℚ × ℚ)
  | x :: y :: rest => (x, y) :: pointsOf rest
  | _ => []

/-- A point lies outside every circle of the field (squared distance at
least the squared radius). -/
def outsideAll (ts : List Trema) (x y : ℚ) : Prop :=
  ∀ c ∈ ts, c.r * c.r ≤ dist2 x y c

instance (ts : List Trema) (x y : ℚ) : Decidable (outsideAll ts x y) := by
  unfold outsideAll; infer_instance

/-- The flat colors array regrouped into consecutive `(r, g, b)` triples. -/
def triplesOf : List ℚ → List (ℚ × ℚ × ℚ)
  | a :: b :: c :: rest => (a, b, c) :: triplesOf rest
  | _ => []

/-- Modelled from the spec's words for comparison with the code's scan:
the level of the circle of `ts` with minimum squared center distance to
`(x, y)`, ties resolved in favor of the circle appearing earliest in the
field (`0` when the field is empty). -/
def specNearestLevel (x y : ℚ) (ts : List Trema) : ℕ :=
  match ts.find? (fun c => decide (∀ c' ∈ ts, dist2 x y c ≤ dist2 x y c')) with
  | some c => c.level
  | none => 0

/-! ### Helper lemmas about the sampler -/

lemma insideAny_eq_false_iff (x y : ℚ) (ts : List Trema) :
    insideAny x y ts = false ↔ outsideAll ts x y := by
  simp [insideAny, insideCircle, outsideAll, List.any_eq_false, not_lt]

lemma pointsOf_append : ∀ (l l' : List ℚ), l.length % 2 = 0 →
    pointsOf (l ++ l') = pointsOf l ++ pointsOf l'
  | [], l', _ => by simp [pointsOf]
  | [x], l', h => by simp at h
  | x :: y :: rest, l', h => by
      have hr : rest.length % 2 = 0 := by
        simp only [List.length_cons] at h; omega
      show (x, y) :: pointsOf (rest ++ l') = (x, y) :: (pointsOf rest ++ pointsOf l')
      rw [pointsOf_append rest l' hr]

lemma triplesOf_append : ∀ (l l' : List ℚ), l.length % 3 = 0 →
    triplesOf (l ++ l') = triplesOf l ++ triplesOf l'
  | [], l', _ => by simp [triplesOf]
  | [a], l', h => by simp at h
  | [a, b], l', h => by simp at h
  | a :: b :: c :: rest, l', h => by
      have hr : rest.length % 3 = 0 := by
        simp only [List.length_cons] at h; omega
      show (a, b, c) :: triplesOf (rest ++ l') =
        (a, b, c) :: (triplesOf rest ++ triplesOf l')
      rw [triplesOf_append rest l' hr]

/-- Generic loop invariant: any predicate on the accumulator preserved
by the accept step (under the loop guard and the rejection test having
failed) is preserved by the whole sampling loop. -/
lemma sampleLoop_preserve (ts : List Trema) (samples : ℕ) (s : ℕ → ℚ)
    (P : Batch → Prop)
    (hstep : ∀ k acc, acc.positions.length / 2 < samples →
      insideAny (randRange (-1) 1 s k) (randRange (-1) 1 s (k + 1)) ts = false →
      P acc → P (accept ts s k acc)) :
    ∀ fuel k acc att, P acc → P (sampleLoop ts samples s fuel k acc att).1 := by
  intro fuel
  induction fuel with
  | zero => intro k acc att h; exact h
  | succ n ih =>
      intro k acc att h
      rw [sampleLoop]
      by_cases hg : acc.positions.length / 2 < samples
      · rw [if_pos hg]
        by_cases hin :
            insideAny (randRange (-1) 1 s k) (randRange (-1) 1 s (k + 1)) ts = true
        · rw [if_pos hin]; exact ih _ _ _ h
        · rw [if_neg hin]
          exact ih _ _ _ (hstep k acc hg (by simpa using hin) h)
      · rw [if_neg hg]; exact h

/-- The three arrays stay parallel: positions hold two entries and
colors three per accepted point. -/
lemma sampleLoop_shape (ts : List Trema) (samples : ℕ) (s : ℕ → ℚ)
    (fuel k att : ℕ) (acc : Batch)
    (h2 : acc.positions.length = 2 * acc.levels.length)
    (h3 : acc.colors.length = 3 * acc.levels.length) :
    (sampleLoop ts samples s fuel k acc att).1.positions.length =
        2 * (sampleLoop ts samples s fuel k acc att).1.levels.length ∧
      (sampleLoop ts samples s fuel k acc att).1.colors.length =
        3 * (sampleLoop ts samples s fuel k acc att).1.levels.length := by
  refine sampleLoop_preserve ts samples s
    (fun b => b.positions.length = 2 * b.levels.length ∧
      b.colors.length = 3 * b.levels.length) ?_ fuel k acc att ⟨h2, h3⟩
  intro k' b _ _ hb
  simp only [accept, List.length_append, List.length_cons, List.length_nil]
  omega

lemma sampleLoop_att_le (ts : List Trema) (samples : ℕ) (s : ℕ → ℚ) :
    ∀ fuel k acc att, (sampleLoop ts samples s fuel k acc att).2 ≤ att + fuel := by
  intro fuel
  induction fuel with
  | zero => intro k acc att; simp [sampleLoop]
  | succ n ih =>
      intro k acc att
      rw [sampleLoop]
      by_cases hg : acc.positions.length / 2 < samples
      · rw [if_pos hg]
        by_cases hin :
            insideAny (randRange (-1) 1 s k) (randRange (-1) 1 s (k + 1)) ts = true
        · rw [if_pos hin]
          calc (sampleLoop ts samples s n (k + 2) acc (att + 1)).2
              ≤ att + 1 + n := ih _ _ _
            _ = att + (n + 1) := by omega
        · rw [if_neg hin]
          calc (sampleLoop ts samples s n (k + 5) (accept ts s k acc) (att + 1)).2
              ≤ att + 1 + n := ih _ _ _
            _ = att + (n + 1) := by omega
      · rw [if_neg hg]; omega

/-! ### The nearest-circle scan -/

lemma find?_congr {α : Type} (p q : α → Bool) :
    ∀ l : List α, (∀ a ∈ l, p a = q a) → l.find? p = l.find? q
  | [], _ => rfl
  | a :: l, h => by
      have ha : p a = q a := h a (List.mem_cons_self a l)
      have hl : l.find? p = l.find? q :=
        find?_congr p q l (fun b hb => h b (List.mem_cons_of_mem a hb))
      simp only [List.find?]
      rw [ha, hl]

/-- When some circle of the tail is strictly closer than the head, the
head is never the spec's nearest circle and can be dropped. -/
lemma specNearestLevel_cons (x y : ℚ) (c : Trema) (ts : List Trema)
    (h : ∃ c' ∈ ts, dist2 x y c' < dist2 x y c) :
    specNearestLevel x y (c :: ts) = specNearestLevel x y ts := by
  obtain ⟨w, hw, hwd⟩ := h
  have hc : (decide (∀ c' ∈ c :: ts, dist2 x y c ≤ dist2 x y c')) = false := by
    simp only [decide_eq_false_iff_not, not_forall]
    exact ⟨w, by simp [List.mem_cons_of_mem _ hw, not_le.mpr hwd]⟩
  have hcong :
      ts.find? (fun a => decide (∀ c' ∈ c :: ts, dist2 x y a ≤ dist2 x y c')) =
      ts.find? (fun a => decide (∀ c' ∈ ts, dist2 x y a ≤ dist2 x y c')) := by
    refine find?_congr _ _ ts (fun a ha => ?_)
    by_cases hall : ∀ c' ∈ ts, dist2 x y a ≤ dist2 x y c'
    · have hac : dist2 x y a ≤ dist2 x y c :=
        le_of_lt (lt_of_le_of_lt (hall w hw) hwd)
      have : ∀ c' ∈ c :: ts, dist2 x y a ≤ dist2 x y c' := by
        intro c' hc'
        rcases List.mem_cons.mp hc' with h1 | h2
        · exact h1 ▸ hac
        · exact hall c' h2
      simp [this, hall]
    · have : ¬ ∀ c' ∈ c :: ts, dist2 x y a ≤ dist2 x y c' := by
        intro hcc
        exact hall (fun c' hc' => hcc c' (List.mem_cons_of_mem c hc'))
      simp [this, hall]
  simp only [specNearestLevel, List.find?, hc, hcong]

/-- Full characterization of the source's scan (`nearScan` started at
threshold `minD`, fallback level `nl`): it returns the fallback when no
circle is strictly closer than the threshold, and the spec's earliest
nearest circle otherwise. -/
lemma nearScan_eq (x y : ℚ) :
    ∀ (ts : List Trema) (minD : ℚ) (nl : ℕ),
      nearScan x y ts minD nl =
        if ∃ c ∈ ts, dist2 x y c < minD then specNearestLevel x y ts else nl
  | [], minD, nl => by simp [nearScan]
  | c :: ts, minD, nl => by
      rw [nearScan]
      by_cases hc : dist2 x y c < minD
      · have hrhs : ∃ c' ∈ c :: ts, dist2 x y c' < minD :=
          ⟨c, List.mem_cons_self c ts, hc⟩
        rw [if_pos hc, if_pos hrhs, nearScan_eq x y ts (dist2 x y c) c.level]
        by_cases ht : ∃ c' ∈ ts, dist2 x y c' < dist2 x y c
        · rw [if_pos ht, specNearestLevel_cons x y c ts ht]
        · rw [if_neg ht]
          have hall : ∀ c' ∈ c :: ts, dist2 x y c ≤ dist2 x y c' := by
            intro c' hc'
            rcases List.mem_cons.mp hc' with h1 | h2
            · exact h1 ▸ le_refl _
            · exact le_of_not_lt (fun hlt => ht ⟨c', h2, hlt⟩)
          have hd : (decide (∀ c' ∈ c :: ts, dist2 x y c ≤ dist2 x y c')) = true :=
            decide_eq_true hall
          have hfind : List.find?
              (fun a => decide (∀ c' ∈ c :: ts, dist2 x y a ≤ dist2 x y c'))
              (c :: ts) = some c :=
            List.find?_cons_of_pos _ (by exact hd)
          simp only [specNearestLevel]
          rw [hfind]
      · rw [if_neg hc, nearScan_eq x y ts minD nl]
        by_cases ht : ∃ c' ∈ ts, dist2 x y c' < minD
        · obtain ⟨w, hw, hwd⟩ := ht
          have hlhs : ∃ c' ∈ ts, dist2 x y c' < minD := ⟨w, hw, hwd⟩
          have hrhs : ∃ c' ∈ c :: ts, dist2 x y c' < minD :=
            ⟨w, List.mem_cons_of_mem c hw, hwd⟩
          rw [if_pos hlhs, if_pos hrhs,
            specNearestLevel_cons x y c ts ⟨w, hw, lt_of_lt_of_le hwd (le_of_not_lt hc)⟩]
        · have hrhs : ¬ ∃ c' ∈ c :: ts, dist2 x y c' < minD := by
            intro ⟨w, hw, hwd⟩
            rcases List.mem_cons.mp hw with h1 | h2
            · exact hc (h1 ▸ hwd)
            · exact ht ⟨w, h2, hwd⟩
          rw [if_neg ht, if_neg hrhs]

/-- The code's `nearLevel` agrees with the spec's nearest-circle level
whenever some circle lies at squared distance below the `1e9` sentinel
(always the case for the fields this program builds). -/
lemma nearLevel_eq_spec (x y : ℚ) (ts : List Trema)
    (h : ∃ c ∈ ts, dist2 x y c < 10 ^ 9) :
    nearLevel x y ts = specNearestLevel x y ts := by
  rw [nearLevel, nearScan_eq, if_pos h]

lemma nearScan_cases (x y : ℚ) :
    ∀ (ts : List Trema) (minD : ℚ) (nl : ℕ),
      nearScan x y ts minD nl = nl ∨ ∃ c ∈ ts, nearScan x y ts minD nl = c.level
  | [], _, _ => Or.inl rfl
  | c :: ts, minD, nl => by
      rw [nearScan]
      by_cases hc : dist2 x y c < minD
      · rw [if_pos hc]
        rcases nearScan_cases x y ts (dist2 x y c) c.level with h | ⟨w, hw, hwl⟩
        · exact Or.inr ⟨c, List.mem_cons_self c ts, h⟩
        · exact Or.inr ⟨w, List.mem_cons_of_mem c hw, hwl⟩
      · rw [if_neg hc]
        rcases nearScan_cases x y ts minD nl with h | ⟨w, hw, hwl⟩
        · exact Or.inl h
        · exact Or.inr ⟨w, List.mem_cons_of_mem c hw, hwl⟩

lemma mem_le_maxLevel (c : Trema) : ∀ ts : List Trema, c ∈ ts → c.level ≤ maxLevel ts
  | t :: ts, h => by
      rcases List.mem_cons.mp h with h1 | h2
      · simp [maxLevel, h1, le_max_iff]
      · simp only [maxLevel, List.foldr_cons]
        exact le_trans (mem_le_maxLevel c ts h2) (le_max_right _ _)

lemma nearLevel_le_levelDivisor (x y : ℚ) (ts : List Trema) :
    nearLevel x y ts ≤ levelDivisor ts := by
  rcases nearScan_cases x y ts (10 ^ 9) 0 with h | ⟨c, hc, hcl⟩
  · rw [nearLevel, h]; exact Nat.zero_le _
  · rw [nearLevel, hcl, levelDivisor]
    have hne : ts.isEmpty = false := by
      cases ts with
      | nil => cases hc
      | cons a l => rfl
    rw [hne]
    simp only [Bool.false_eq_true, if_false]
    exact le_trans (mem_le_maxLevel c ts hc) (le_max_right _ _)

lemma one_le_levelDivisor (ts : List Trema) : 1 ≤ levelDivisor ts := by
  rw [levelDivisor]
  by_cases h : ts.isEmpty
  · rw [if_pos h]
  · rw [if_neg h]; exact le_max_left _ _

lemma levelFactor_mem_unit (x y : ℚ) (ts : List Trema) :
    0 ≤ levelFactor x y ts ∧ levelFactor x y ts ≤ 1 := by
  have hd : (0 : ℚ) < (levelDivisor ts : ℚ) := by
    exact_mod_cast Nat.lt_of_lt_of_le Nat.zero_lt_one (one_le_levelDivisor ts)
  constructor
  · exact div_nonneg (by positivity) (le_of_lt hd)
  · rw [levelFactor, div_le_one hd]
    exact_mod_cast nearLevel_le_levelDivisor x y ts

/-! ### Helper lemmas about the builder -/

lemma buildLevel_length (b : ℚ) (L : ℕ) (s : ℕ → ℚ) :
    ∀ n k, (buildLevel b L s n k).length = n
  | 0, _ => rfl
  | n + 1, k => by
      simp only [buildLevel, List.length_cons, buildLevel_length b L s n (k + 3)]

lemma mem_buildLevel (b : ℚ) (L : ℕ) (s : ℕ → ℚ) (c : Trema) :
    ∀ n k, c ∈ buildLevel b L s n k → ∃ j, c = mkTrema b L s j
  | n + 1, k, h => by
      rcases List.mem_cons.mp h with h1 | h2
      · exact ⟨k, h1⟩
      · exact mem_buildLevel b L s c n (k + 3) h2

lemma buildLevel_level (b : ℚ) (L : ℕ) (s : ℕ → ℚ) (c : Trema)
    (n k : ℕ) (h : c ∈ buildLevel b L s n k) : c.level = L := by
  obtain ⟨j, rfl⟩ := mem_buildLevel b L s c n k h
  rfl

lemma buildLevels_length (ρ b : ℚ) (s : ℕ → ℚ) :
    ∀ (Ls : List ℕ) (k : ℕ),
      (buildLevels ρ b s Ls k).length = (Ls.map (tremaCount ρ)).sum
  | [], _ => rfl
  | L :: Ls, k => by
      simp only [buildLevels, List.length_append, List.map_cons, List.sum_cons,
        buildLevel_length, buildLevels_length ρ b s Ls]

lemma mem_buildLevels (ρ b : ℚ) (s : ℕ → ℚ) (c : Trema) :
    ∀ (Ls : List ℕ) (k : ℕ), c ∈ buildLevels ρ b s Ls k →
      ∃ L ∈ Ls, ∃ j, c = mkTrema b L s j
  | L :: Ls, k, h => by
      rcases List.mem_append.mp h with h1 | h2
      · obtain ⟨j, hj⟩ := mem_buildLevel b L s c _ _ h1
        exact ⟨L, List.mem_cons_self L Ls, j, hj⟩
      · obtain ⟨L', hL', hj⟩ := mem_buildLevels ρ b s c Ls _ h2
        exact ⟨L', List.mem_cons_of_mem L hL', hj⟩

lemma buildLevel_filter_level (b : ℚ) (L L' : ℕ) (s : ℕ → ℚ) :
    ∀ n k, ((buildLevel b L' s n k).filter (fun c => decide (c.level = L))).length =
      if L = L' then n else 0
  | 0, _ => by simp [buildLevel]
  | n + 1, k => by
      simp only [buildLevel, List.filter_cons]
      by_cases hL : L = L'
      · subst hL
        simp [mkTrema, buildLevel_filter_level b L L s n (k + 3)]
      · have : (decide ((mkTrema b L' s k).level = L)) = false :=
          decide_eq_false (fun h => hL (h ▸ rfl))
        simp only [this, Bool.false_eq_true, if_false,
          buildLevel_filter_level b L L' s n (k + 3), if_neg hL]

lemma buildLevels_filter_level (ρ b : ℚ) (L : ℕ) (s : ℕ → ℚ) :
    ∀ (Ls : List ℕ) (k : ℕ), Ls.Nodup →
      ((buildLevels ρ b s Ls k).filter (fun c => decide (c.level = L))).length =
        if L ∈ Ls then tremaCount ρ L else 0
  | [], _, _ => by simp [buildLevels]
  | L' :: Ls, k, hnd => by
      have hnd' : Ls.Nodup := (List.nodup_cons.mp hnd).2
      have hnm : L' ∉ Ls := (List.nodup_cons.mp hnd).1
      simp only [buildLevels, List.filter_append, List.length_append,
        buildLevel_filter_level, buildLevels_filter_level ρ b L s Ls _ hnd']
      by_cases h1 : L = L'
      · subst h1
        simp [hnm]
      · simp only [if_neg h1, List.mem_cons]
        by_cases h2 : L ∈ Ls
        · simp [h2, h1]
        · simp [h2, h1]

lemma buildTremas_length (depth : ℕ) (ρ b : ℚ) (s : ℕ → ℚ) :
    (buildTremas depth ρ b s).length =
      ((List.range depth).map (tremaCount ρ)).sum :=
  buildLevels_length ρ b s (List.range depth) 0

lemma buildTremas_filter_level (depth : ℕ) (ρ b : ℚ) (s : ℕ → ℚ) (L : ℕ)
    (hL : L < depth) :
    ((buildTremas depth ρ b s).filter (fun c => decide (c.level = L))).length =
      tremaCount ρ L := by
  rw [buildTremas, buildLevels_filter_level ρ b L s (List.range depth) 0
    (List.nodup_range depth), if_pos (List.mem_range.mpr hL)]

lemma tremaCount_int (ρ : ℚ) (L : ℕ) (hρ : 0 < ρ) :
    (tremaCount ρ L : ℤ) = max 1 ⌊ρ * 2 ^ (L + 1) * 30⌋ := by
  have hpos : (0 : ℚ) < ρ * 2 ^ (L + 1) * 30 := by positivity
  have hfl : (0 : ℤ) ≤ ⌊ρ * 2 ^ (L + 1) * 30⌋ := by
    exact_mod_cast Int.le_floor.mpr (by exact_mod_cast le_of_lt hpos)
  rw [tremaCount]
  omega

/-! ### Determinism: both functions only read the draws they consume -/

lemma mkTrema_congr (b : ℚ) (L : ℕ) (s₁ s₂ : ℕ → ℚ) (k : ℕ)
    (h : ∀ i, i < k + 3 → s₁ i = s₂ i) : mkTrema b L s₁ k = mkTrema b L s₂ k := by
  simp only [mkTrema, randRange, h k (by omega), h (k + 1) (by omega), h (k + 2) (by omega)]

lemma buildLevel_congr (b : ℚ) (L : ℕ) (s₁ s₂ : ℕ → ℚ) :
    ∀ n k, (∀ i, i < k + 3 * n → s₁ i = s₂ i) →
      buildLevel b L s₁ n k = buildLevel b L s₂ n k
  | 0, _, _ => rfl
  | n + 1, k, h => by
      rw [buildLevel, buildLevel,
        mkTrema_congr b L s₁ s₂ k (fun i hi => h i (by omega)),
        buildLevel_congr b L s₁ s₂ n (k + 3) (fun i hi => h i (by omega))]

lemma buildLevels_congr (ρ b : ℚ) (s₁ s₂ : ℕ → ℚ) :
    ∀ (Ls : List ℕ) (k : ℕ),
      (∀ i, i < k + 3 * (Ls.map (tremaCount ρ)).sum → s₁ i = s₂ i) →
      buildLevels ρ b s₁ Ls k = buildLevels ρ b s₂ Ls k
  | [], _, _ => rfl
  | L :: Ls, k, h => by
      have hsum : 3 * ((L :: Ls).map (tremaCount ρ)).sum =
          3 * tremaCount ρ L + 3 * (Ls.map (tremaCount ρ)).sum := by
        simp only [List.map_cons, List.sum_cons]; ring
      rw [buildLevels, buildLevels,
        buildLevel_congr b L s₁ s₂ (tremaCount ρ L) k (fun i hi => h i (by omega)),
        buildLevels_congr ρ b s₁ s₂ Ls (k + 3 * tremaCount ρ L)
          (fun i hi => h i (by omega))]

lemma accept_congr (ts : List Trema) (s₁ s₂ : ℕ → ℚ) (k : ℕ) (acc : Batch)
    (h : ∀ i, i < k + 5 → s₁ i = s₂ i) : accept ts s₁ k acc = accept ts s₂ k acc := by
  simp only [accept, randRange, h k (by omega), h (k + 1) (by omega),
    h (k + 2) (by omega), h (k + 3) (by omega), h (k + 4) (by omega)]

lemma sampleLoop_congr (ts : List Trema) (n : ℕ) (s₁ s₂ : ℕ → ℚ) :
    ∀ fuel k acc att, (∀ i, i < k + 5 * fuel → s₁ i = s₂ i) →
      sampleLoop ts n s₁ fuel k acc att = sampleLoop ts n s₂ fuel k acc att
  | 0, _, _, _, _ => rfl
  | fuel + 1, k, acc, att, h => by
      have hx : s₁ k = s₂ k := h k (by omega)
      have hy : s₁ (k + 1) = s₂ (k + 1) := h (k + 1) (by omega)
      rw [sampleLoop, sampleLoop]
      by_cases hg : acc.positions.length / 2 < n
      · rw [if_pos hg, if_pos hg]
        simp only [randRange, hx, hy]
        by_cases hin :
            insideAny (-1 + (1 - -1) * s₂ k) (-1 + (1 - -1) * s₂ (k + 1)) ts = true
        · rw [if_pos hin, if_pos hin,
            sampleLoop_congr ts n s₁ s₂ fuel (k + 2) acc (att + 1)
              (fun i hi => h i (by omega))]
        · rw [if_neg hin, if_neg hin,
            accept_congr ts s₁ s₂ k acc (fun i hi => h i (by omega)),
            sampleLoop_congr ts n s₁ s₂ fuel (k + 5) (accept ts s₂ k acc) (att + 1)
              (fun i hi => h i (by omega))]
      · rw [if_neg hg, if_neg hg]

/-! ### The empty field accepts every candidate -/

lemma levelFactor_nil (x y : ℚ) : levelFactor x y [] = 0 := by
  simp [levelFactor, nearLevel, nearScan, levelDivisor]

lemma sampleLoop_nil_levels (n : ℕ) (s : ℕ → ℚ) :
    ∀ fuel k acc att, acc.positions.length = 2 * acc.levels.length →
      acc.levels.length ≤ n → n ≤ acc.levels.length + fuel →
      (sampleLoop [] n s fuel k acc att).1.levels =
        acc.levels ++ List.replicate (n - acc.levels.length) (0 : ℚ)
  | 0, k, acc, att, _, hle, hge => by
      have : acc.levels.length = n := by omega
      simp [sampleLoop, this]
  | fuel + 1, k, acc, att, h2, hle, hge => by
      rw [sampleLoop]
      have hquot : acc.positions.length / 2 = acc.levels.length := by
        rw [h2, Nat.mul_div_cancel_left _ (by norm_num)]
      by_cases hlt : acc.levels.length < n
      · rw [if_pos (by rw [hquot]; exact hlt)]
        have hin : insideAny (randRange (-1) 1 s k) (randRange (-1) 1 s (k + 1)) [] = false :=
          rfl
        rw [if_neg (by rw [hin]; exact Bool.false_ne_true)]
        have hlen : (accept [] s k acc).levels.length = acc.levels.length + 1 := by
          simp [accept]
        rw [sampleLoop_nil_levels n s fuel (k + 5) (accept [] s k acc) (att + 1)
          (by simp [accept]; omega) (by omega) (by rw [hlen]; omega)]
        simp only [accept, levelFactor_nil, hlen, List.append_assoc, List.singleton_append]
        have : n - acc.levels.length = (n - (acc.levels.length + 1)) + 1 := by omega
        rw [this, List.replicate_succ]
        simp
      · rw [if_neg (by rw [hquot]; exact hlt)]
        have : acc.levels.length = n := by omega
        simp [this]

/-! ### Single-step unfolding lemmas for concrete runs -/

lemma sampleLoop_step_accept (ts : List Trema) (n : ℕ) (s : ℕ → ℚ)
    (fuel k att : ℕ) (acc : Batch) (hg : acc.positions.length / 2 < n)
    (h : insideAny (randRange (-1) 1 s k) (randRange (-1) 1 s (k + 1)) ts = false) :
    sampleLoop ts n s (fuel + 1) k acc att =
      sampleLoop ts n s fuel (k + 5) (accept ts s k acc) (att + 1) := by
  rw [sampleLoop, if_pos hg, if_neg (by rw [h]; exact Bool.false_ne_true)]

lemma sampleLoop_step_reject (ts : List Trema) (n : ℕ) (s : ℕ → ℚ)
    (fuel k att : ℕ) (acc : Batch) (hg : acc.positions.length / 2 < n)
    (h : insideAny (randRange (-1) 1 s k) (randRange (-1) 1 s (k + 1)) ts = true) :
    sampleLoop ts n s (fuel + 1) k acc att =
      sampleLoop ts n s fuel (k + 2) acc (att + 1) := by
  rw [sampleLoop, if_pos hg, if_pos h]

lemma sampleLoop_step_stop (ts : List Trema) (n : ℕ) (s : ℕ → ℚ)
    (fuel k att : ℕ) (acc : Batch) (hg : ¬ acc.positions.length / 2 < n) :
    sampleLoop ts n s (fuel + 1) k acc att = (acc, att) := by
  rw [sampleLoop, if_neg hg]

/-! ### Claim theorems -/

/-- Claim C1: every point returned by `generatePointsFromTremas` lies
outside every circle of the field — squared center distance at least
the squared radius, for each circle. -/
theorem C1_containment (ts : List Trema) (n : ℕ) (s : ℕ → ℚ) :
    ∀ p ∈ pointsOf (generatePointsFromTremas ts n s).positions,
      outsideAll ts p.1 p.2 := by
  simp only [generatePointsFromTremas, sampleRun]
  refine (sampleLoop_preserve ts n s
    (fun b => b.positions.length % 2 = 0 ∧
      ∀ p ∈ pointsOf b.positions, outsideAll ts p.1 p.2)
    ?_ (n * 10) 0 ⟨[], [], []⟩ 0 ⟨rfl, by simp [pointsOf]⟩).2
  intro k acc _ hin hacc
  obtain ⟨heven, hmem⟩ := hacc
  refine ⟨by simp only [accept, List.length_append, List.length_cons,
    List.length_nil]; omega, ?_⟩
  intro p hp
  simp only [accept] at hp
  rw [pointsOf_append _ _ heven] at hp
  rcases List.mem_append.mp hp with h1 | h2
  · exact hmem p h1
  · have hpeq : p = (randRange (-1) 1 s k, randRange (-1) 1 s (k + 1)) := by
      simpa [pointsOf] using h2
    subst hpeq
    exact (insideAny_eq_false_iff _ _ ts).mp hin

/-- Claim C1 witness: a concrete accepted point of a concrete run is
outside the single circle of its field. -/
theorem C1_containment_witness :
    outsideAll [⟨0, 0, 1 / 2, 0⟩] ((1 : ℚ), (1 : ℚ)).1 ((1 : ℚ), (1 : ℚ)).2 :=
  C1_containment [⟨0, 0, 1 / 2, 0⟩] 1 (fun _ => 1) ((1 : ℚ), (1 : ℚ)) (by
    have h : pointsOf (generatePointsFromTremas [⟨0, 0, 1 / 2, 0⟩] 1
        (fun _ => 1)).positions = [((1 : ℚ), (1 : ℚ))] := by
      rw [generatePointsFromTremas, sampleRun,
        sampleLoop_step_accept _ _ _ 9 0 0 _ (by norm_num)
          (by norm_num [insideAny, insideCircle, dist2, randRange]),
        sampleLoop_step_stop _ _ _ 8 5 1 _ (by norm_num [accept])]
      norm_num [accept, randRange, pointsOf]
    rw [h]
    exact List.mem_singleton.mpr rfl)

/-- Claim C3: the sampler returns at most `n` points (levels entries and
position pairs), and the loop performs at most `10*n` iterations, so it
terminates on every input. -/
theorem C3_bounded_output (ts : List Trema) (n : ℕ) (s : ℕ → ℚ) :
    (generatePointsFromTremas ts n s).levels.length ≤ n ∧
      (generatePointsFromTremas ts n s).positions.length ≤ 2 * n ∧
      (sampleRun ts n s).2 ≤ 10 * n := by
  have hP := sampleLoop_preserve ts n s
    (fun b => b.positions.length = 2 * b.levels.length ∧ b.levels.length ≤ n)
    ?_ (n * 10) 0 ⟨[], [], []⟩ 0 ⟨rfl, Nat.zero_le n⟩
  · refine ⟨?_, ?_, ?_⟩
    · exact hP.2
    · simp only [generatePointsFromTremas, sampleRun]
      omega
    · have := sampleLoop_att_le ts n s (n * 10) 0 ⟨[], [], []⟩ 0
      rw [sampleRun]
      omega
  · intro k acc hg _ hacc
    obtain ⟨hsh, hle⟩ := hacc
    have hlt : acc.levels.length < n := by
      rw [hsh, Nat.mul_div_cancel_left _ (by norm_num)] at hg
      exact hg
    constructor
    · simp only [accept, List.length_append, List.length_cons, List.length_nil]
      omega
    · simp only [accept, List.length_append, List.length_cons, List.length_nil]
      omega

/-- Claim C9: the output arrays are parallel — with `N` the number of
accepted points, positions hold `2*N` entries and colors `3*N`. -/
theorem C9_parallel_arrays (ts : List Trema) (n : ℕ) (s : ℕ → ℚ) :
    (generatePointsFromTremas ts n s).positions.length =
        2 * (generatePointsFromTremas ts n s).levels.length ∧
      (generatePointsFromTremas ts n s).colors.length =
        3 * (generatePointsFromTremas ts n s).levels.length := by
  simp only [generatePointsFromTremas, sampleRun]
  exact sampleLoop_shape ts n s (n * 10) 0 0 ⟨[], [], []⟩ rfl rfl

/-- Claim C7: every `levelFactor` the sampler outputs lies in `[0, 1]`:
the nearest level never exceeds the divisor `max 1 (max level)`. -/
theorem C7_levelFactor_range (ts : List Trema) (n : ℕ) (s : ℕ → ℚ) :
    ∀ v ∈ (generatePointsFromTremas ts n s).levels, 0 ≤ v ∧ v ≤ 1 := by
  simp only [generatePointsFromTremas, sampleRun]
  refine sampleLoop_preserve ts n s
    (fun b => ∀ v ∈ b.levels, 0 ≤ v ∧ v ≤ 1)
    ?_ (n * 10) 0 ⟨[], [], []⟩ 0 (by simp)
  intro k acc _ _ hacc v hv
  simp only [accept, List.mem_append, List.mem_singleton] at hv
  rcases hv with h1 | h2
  · exact hacc v h1
  · exact h2 ▸ levelFactor_mem_unit _ _ ts

/-- Claim C7 witness: the level value of a concrete run is in `[0, 1]`. -/
theorem C7_levelFactor_range_witness :
    (0 : ℚ) ≤ 1 ∧ (1 : ℚ) ≤ 1 :=
  C7_levelFactor_range [⟨0, 0, 1 / 2, 2⟩, ⟨1, 1, 1 / 4, 1⟩] 1
    (fun _ => 0) 1 (by
      have h : (generatePointsFromTremas [⟨0, 0, 1 / 2, 2⟩, ⟨1, 1, 1 / 4, 1⟩] 1
          (fun _ => 0)).levels = [(1 : ℚ)] := by
        rw [generatePointsFromTremas, sampleRun,
          sampleLoop_step_accept _ _ _ 9 0 0 _ (by norm_num)
            (by norm_num [insideAny, insideCircle, dist2, randRange]),
          sampleLoop_step_stop _ _ _ 8 5 1 _ (by norm_num [accept])]
        norm_num [accept, randRange, levelFactor, nearLevel, nearScan, dist2,
          levelDivisor, maxLevel]
      rw [h]
      exact List.mem_singleton.mpr rfl)

/-- Claim C5: `buildTremas` at depth `0` yields the empty field, and
sampling against the empty field accepts every candidate: exactly `n`
points come back (none when `n = 0`), every levelFactor is `0`, and the
parallel arrays have the matching exact lengths — all functions total,
so no error can arise. -/
theorem C5_degenerate (density baseRadius : ℚ) (s : ℕ → ℚ) (n : ℕ) (s' : ℕ → ℚ) :
    buildTremas 0 density baseRadius s = [] ∧
      (generatePointsFromTremas [] n s').levels = List.replicate n (0 : ℚ) ∧
      (generatePointsFromTremas [] n s').positions.length = 2 * n ∧
      (generatePointsFromTremas [] n s').colors.length = 3 * n := by
  have hlev : (generatePointsFromTremas [] n s').levels = List.replicate n (0 : ℚ) := by
    simp only [generatePointsFromTremas, sampleRun]
    have := sampleLoop_nil_levels n s' (n * 10) 0 ⟨[], [], []⟩ 0 rfl
      (Nat.zero_le n) (by omega)
    simpa using this
  have hsh := sampleLoop_shape ([] : List Trema) n s' (n * 10) 0 0 ⟨[], [], []⟩ rfl rfl
  have hN : (generatePointsFromTremas [] n s').levels.length = n := by
    rw [hlev, List.length_replicate]
  refine ⟨rfl, hlev, ?_, ?_⟩
  · simp only [generatePointsFromTremas, sampleRun] at hN ⊢
    omega
  · simp only [generatePointsFromTremas, sampleRun] at hN ⊢
    omega

/-- Claim C2: `buildTremas` returns, for each level `0 ≤ L < depth`,
exactly `max(1, floor(density * 2^(L+1) * 30))` circles carrying that
level, and its total length is the sum of these counts over the levels. -/
theorem C2_level_count (depth : ℕ) (density baseRadius : ℚ) (s : ℕ → ℚ)
    (hρ : 0 < density) :
    (buildTremas depth density baseRadius s).length =
        ((List.range depth).map (tremaCount density)).sum ∧
      (∀ L < depth,
        ((buildTremas depth density baseRadius s).filter
            (fun c => decide (c.level = L))).length = tremaCount density L) ∧
      ∀ L : ℕ, (tremaCount density L : ℤ) = max 1 ⌊density * 2 ^ (L + 1) * 30⌋ :=
  ⟨buildTremas_length depth density baseRadius s,
   fun L hL => buildTremas_filter_level depth density baseRadius s L hL,
   fun L => tremaCount_int density L hρ⟩

/-- Claim C2 witness: the level-count law applied at the documented
example configuration `depth = 1`, `density = 0.4`. -/
theorem C2_level_count_witness :
    (0 : ℚ) < 2 / 5 ∧
      (buildTremas 1 (2 / 5) (18 / 100) (fun _ => 0)).length =
        ((List.range 1).map (tremaCount (2 / 5))).sum :=
  ⟨by norm_num, (C2_level_count 1 (2 / 5) (18 / 100) (fun _ => 0) (by norm_num)).1⟩

/-- Claim C6: every circle built by `buildTremas` has radius
`baseRadius * 0.5^level * (0.8 + 0.4*u)` for some draw `u ∈ [0,1)` —
hence positive and within `[0.8, 1.2)` of the level radius — and level
in `[0, depth-1]`; the per-level radius factor strictly decreases with
the level. -/
theorem C6_circle_invariant (depth : ℕ) (density baseRadius : ℚ) (s : ℕ → ℚ)
    (hd : 1 ≤ depth) (hρ : 0 < density) (hb : 0 < baseRadius) (hb1 : baseRadius ≤ 1)
    (hs : ∀ i, 0 ≤ s i ∧ s i < 1) :
    (∀ c ∈ buildTremas depth density baseRadius s,
      (∃ u, 0 ≤ u ∧ u < 1 ∧
        c.r = baseRadius * (1 / 2) ^ c.level * (4 / 5 + 2 / 5 * u)) ∧
        0 < c.r ∧
        baseRadius * (1 / 2) ^ c.level * (4 / 5) ≤ c.r ∧
        c.r < baseRadius * (1 / 2) ^ c.level * (6 / 5) ∧
        c.level < depth) ∧
      ∀ L1 L2 : ℕ, L1 < L2 →
        baseRadius * (1 / 2) ^ L2 < baseRadius * (1 / 2) ^ L1 := by
  constructor
  · intro c hc
    obtain ⟨L, hL, j, rfl⟩ :=
      mem_buildLevels density baseRadius s c (List.range depth) 0 hc
    have hu := hs (j + 2)
    have hpos : (0 : ℚ) < baseRadius * (1 / 2) ^ L := by positivity
    refine ⟨⟨s (j + 2), hu.1, hu.2, rfl⟩, ?_, ?_, ?_, ?_⟩
    · show 0 < baseRadius * (1 / 2) ^ L * (4 / 5 + 2 / 5 * s (j + 2))
      nlinarith [hu.1, hpos]
    · show baseRadius * (1 / 2) ^ L * (4 / 5) ≤
        baseRadius * (1 / 2) ^ L * (4 / 5 + 2 / 5 * s (j + 2))
      nlinarith [hu.1, hpos]
    · show baseRadius * (1 / 2) ^ L * (4 / 5 + 2 / 5 * s (j + 2)) <
        baseRadius * (1 / 2) ^ L * (6 / 5)
      nlinarith [hu.2, hpos]
    · exact List.mem_range.mp hL
  · intro L1 L2 h
    exact mul_lt_mul_of_pos_left
      (pow_lt_pow_right_of_lt_one₀ (by norm_num) (by norm_num) h) hb

/-- Claim C6 witness: the radius-factor decay applied at the documented
example configuration. -/
theorem C6_circle_invariant_witness :
    (18 : ℚ) / 100 * (1 / 2) ^ 1 < 18 / 100 * (1 / 2) ^ 0 :=
  (C6_circle_invariant 1 (2 / 5) (18 / 100) (fun _ => 0) (le_refl 1)
    (by norm_num) (by norm_num) (by norm_num)
    (fun i => ⟨le_refl 0, by norm_num⟩)).2 0 1 (by norm_num)

/-- Claim C8: with the random source replaced by an explicit draw
stream, both functions are pure — they depend only on the configuration
and on the draws they actually consume, so equal draw sequences give
identical outputs. -/
theorem C8_determinism (depth : ℕ) (density baseRadius : ℚ) (ts : List Trema)
    (n : ℕ) (s₁ s₂ : ℕ → ℚ) :
    ((∀ i, i < 3 * ((List.range depth).map (tremaCount density)).sum → s₁ i = s₂ i) →
        buildTremas depth density baseRadius s₁ = buildTremas depth density baseRadius s₂) ∧
      ((∀ i, i < 5 * (n * 10) → s₁ i = s₂ i) →
        sampleRun ts n s₁ = sampleRun ts n s₂ ∧
          generatePointsFromTremas ts n s₁ = generatePointsFromTremas ts n s₂) := by
  constructor
  · intro h
    exact buildLevels_congr density baseRadius s₁ s₂ (List.range depth) 0
      (fun i hi => h i (by omega))
  · intro h
    have heq := sampleLoop_congr ts n s₁ s₂ (n * 10) 0 ⟨[], [], []⟩ 0
      (fun i hi => h i (by omega))
    constructor
    · rw [sampleRun, sampleRun, heq]
    · rw [generatePointsFromTremas, generatePointsFromTremas, sampleRun, sampleRun, heq]

/-- Claim C8 witness: determinism applied to a concrete configuration
with the two streams literally equal. -/
theorem C8_determinism_witness :
    buildTremas 2 (2 / 5) (18 / 100) (fun _ => 0) =
        buildTremas 2 (2 / 5) (18 / 100) (fun _ => 0) ∧
      sampleRun [] 3 (fun _ => 0) = sampleRun [] 3 (fun _ => 0) :=
  ⟨(C8_determinism 2 (2 / 5) (18 / 100) [] 3 (fun _ => 0) (fun _ => 0)).1
      (fun i _ => rfl),
   ((C8_determinism 2 (2 / 5) (18 / 100) [] 3 (fun _ => 0) (fun _ => 0)).2
      (fun i _ => rfl)).1⟩

/-- Claim C4: for every data-model-valid non-empty field (circle centers
in `[-1,1]²`, as the spec's `ExclusionCircle` requires and as
`buildTremas` guarantees) and draws in `[0,1)` (the `Math.random`
contract), every accepted point's levels entry equals the level of the
circle with minimum squared center distance to the point — ties resolved
in favor of the circle appearing earliest in the field — divided by
`max 1 (max level over the field)`.  (The scan's `1e9` sentinel is
unreachable here: squared distances are at most `8`.) -/
theorem C4_levelFactor_attribution (ts : List Trema) (n : ℕ) (s : ℕ → ℚ)
    (hts : ∀ c ∈ ts, -1 ≤ c.cx ∧ c.cx ≤ 1 ∧ -1 ≤ c.cy ∧ c.cy ≤ 1)
    (hne : ts ≠ []) (hs : ∀ i, 0 ≤ s i ∧ s i < 1) :
    (generatePointsFromTremas ts n s).levels =
      (pointsOf (generatePointsFromTremas ts n s).positions).map
        (fun p => (specNearestLevel p.1 p.2 ts : ℚ) /
          ((max 1 (maxLevel ts) : ℕ) : ℚ)) := by
  obtain ⟨c₀, hc₀⟩ := List.exists_mem_of_ne_nil ts hne
  have hempty : ts.isEmpty = false := by
    cases ts with
    | nil => exact absurd rfl hne
    | cons a l => rfl
  have key : ∀ x y : ℚ, -1 ≤ x → x ≤ 1 → -1 ≤ y → y ≤ 1 →
      levelFactor x y ts =
        (specNearestLevel x y ts : ℚ) / ((max 1 (maxLevel ts) : ℕ) : ℚ) := by
    intro x y hx1 hx2 hy1 hy2
    obtain ⟨hcx1, hcx2, hcy1, hcy2⟩ := hts c₀ hc₀
    have hd : dist2 x y c₀ < 10 ^ 9 := by
      rw [dist2]
      nlinarith [sq_nonneg (x - c₀.cx), sq_nonneg (y - c₀.cy)]
    rw [levelFactor, nearLevel_eq_spec x y ts ⟨c₀, hc₀, hd⟩, levelDivisor, hempty]
    simp
  simp only [generatePointsFromTremas, sampleRun]
  refine (sampleLoop_preserve ts n s
    (fun b => b.positions.length = 2 * b.levels.length ∧
      b.levels = (pointsOf b.positions).map
        (fun p => (specNearestLevel p.1 p.2 ts : ℚ) /
          ((max 1 (maxLevel ts) : ℕ) : ℚ)))
    ?_ (n * 10) 0 ⟨[], [], []⟩ 0 ⟨rfl, by simp [pointsOf]⟩).2
  intro k acc _ _ hacc
  obtain ⟨hsh, hmap⟩ := hacc
  have hk := hs k
  have hk1 := hs (k + 1)
  constructor
  · simp only [accept, List.length_append, List.length_cons, List.length_nil]
    omega
  · simp only [accept]
    rw [pointsOf_append _ _ (by omega), List.map_append, ← hmap]
    have hx : levelFactor (randRange (-1) 1 s k) (randRange (-1) 1 s (k + 1)) ts =
        (specNearestLevel (randRange (-1) 1 s k) (randRange (-1) 1 s (k + 1)) ts : ℚ) /
          ((max 1 (maxLevel ts) : ℕ) : ℚ) := by
      refine key _ _ ?_ ?_ ?_ ?_ <;> rw [randRange] <;> linarith [hk.1, hk.2, hk1.1, hk1.2]
    simp [pointsOf, hx]

/-- Claim C4 witness: the attribution law at a concrete in-range field
and stream (one point accepted at `(0.8, 0.8)`). -/
theorem C4_levelFactor_attribution_witness :
    (generatePointsFromTremas [⟨0, 0, 1 / 2, 2⟩] 1 (fun _ => 9 / 10)).levels =
      (pointsOf (generatePointsFromTremas [⟨0, 0, 1 / 2, 2⟩] 1
        (fun _ => 9 / 10)).positions).map
        (fun p => (specNearestLevel p.1 p.2 [⟨0, 0, 1 / 2, 2⟩] : ℚ) /
          ((max 1 (maxLevel [⟨0, 0, 1 / 2, 2⟩]) : ℕ) : ℚ)) :=
  C4_levelFactor_attribution [⟨0, 0, 1 / 2, 2⟩] 1 (fun _ => 9 / 10)
    (by intro c hc; rw [List.mem_singleton] at hc; subst hc; norm_num)
    (by simp) (fun i => ⟨by norm_num, by norm_num⟩)

/-- Claim C10: each accepted point's three color channels are affine
images of draws in `[0,1)` — `0.2+0.6u`, `0.35+0.55u`, `0.4+0.6u` in
push order — so they lie in `[0.2,0.8)`, `[0.35,0.9)` and `[0.4,1.0)`
respectively, and every flat color entry is in `[0,1]`. -/
theorem C10_color_bounds (ts : List Trema) (n : ℕ) (s : ℕ → ℚ)
    (hs : ∀ i, 0 ≤ s i ∧ s i < 1) :
    (∀ t ∈ triplesOf (generatePointsFromTremas ts n s).colors,
      (∃ u, 0 ≤ u ∧ u < 1 ∧ t.1 = 1 / 5 + 3 / 5 * u) ∧
        (∃ u, 0 ≤ u ∧ u < 1 ∧ t.2.1 = 7 / 20 + 11 / 20 * u) ∧
        (∃ u, 0 ≤ u ∧ u < 1 ∧ t.2.2 = 2 / 5 + 3 / 5 * u) ∧
        (1 / 5 ≤ t.1 ∧ t.1 < 4 / 5) ∧
        (7 / 20 ≤ t.2.1 ∧ t.2.1 < 9 / 10) ∧
        (2 / 5 ≤ t.2.2 ∧ t.2.2 < 1)) ∧
      ∀ v ∈ (generatePointsFromTremas ts n s).colors, 0 ≤ v ∧ v ≤ 1 := by
  simp only [generatePointsFromTremas, sampleRun]
  have h := sampleLoop_preserve ts n s
    (fun b => b.colors.length % 3 = 0 ∧
      (∀ t ∈ triplesOf b.colors,
        (∃ u, 0 ≤ u ∧ u < 1 ∧ t.1 = 1 / 5 + 3 / 5 * u) ∧
          (∃ u, 0 ≤ u ∧ u < 1 ∧ t.2.1 = 7 / 20 + 11 / 20 * u) ∧
          (∃ u, 0 ≤ u ∧ u < 1 ∧ t.2.2 = 2 / 5 + 3 / 5 * u) ∧
          (1 / 5 ≤ t.1 ∧ t.1 < 4 / 5) ∧
          (7 / 20 ≤ t.2.1 ∧ t.2.1 < 9 / 10) ∧
          (2 / 5 ≤ t.2.2 ∧ t.2.2 < 1)) ∧
      ∀ v ∈ b.colors, 0 ≤ v ∧ v ≤ 1)
    ?_ (n * 10) 0 ⟨[], [], []⟩ 0 ⟨rfl, by simp [triplesOf], by simp⟩
  · exact ⟨h.2.1, h.2.2⟩
  · intro k acc _ _ hacc
    obtain ⟨hm3, htr, hel⟩ := hacc
    have hu2 := hs (k + 2)
    have hu3 := hs (k + 3)
    have hu4 := hs (k + 4)
    refine ⟨?_, ?_, ?_⟩
    · simp only [accept, List.length_append, List.length_cons, List.length_nil]
      omega
    · intro t ht
      simp only [accept] at ht
      rw [triplesOf_append _ _ hm3] at ht
      rcases List.mem_append.mp ht with h1 | h2
      · exact htr t h1
      · have hteq : t = (1 / 5 + 3 / 5 * s (k + 3), 7 / 20 + 11 / 20 * s (k + 4),
            2 / 5 + 3 / 5 * s (k + 2)) := by
          simpa [triplesOf] using h2
        subst hteq
        refine ⟨⟨s (k + 3), hu3.1, hu3.2, rfl⟩, ⟨s (k + 4), hu4.1, hu4.2, rfl⟩,
          ⟨s (k + 2), hu2.1, hu2.2, rfl⟩, ?_, ?_, ?_⟩
        · constructor <;> [linarith [hu3.1]; linarith [hu3.2]]
        · constructor <;> [linarith [hu4.1]; linarith [hu4.2]]
        · constructor <;> [linarith [hu2.1]; linarith [hu2.2]]
    · intro v hv
      simp only [accept, List.mem_append, List.mem_cons, List.not_mem_nil,
        or_false] at hv
      rcases hv with h1 | h | h | h
      · exact hel v h1
      all_goals subst h
      all_goals constructor <;>
        linarith [hu2.1, hu2.2, hu3.1, hu3.2, hu4.1, hu4.2]

/-- Claim C10 witness: the channel bounds at a concrete run's first
color triple. -/
theorem C10_color_bounds_witness :
    (0 : ℚ) ≤ 1 / 5 ∧ (1 / 5 : ℚ) ≤ 1 :=
  (C10_color_bounds [] 1 (fun _ => 0)
      (fun i => ⟨le_refl 0, by norm_num⟩)).2 (1 / 5) (by
    have h : (generatePointsFromTremas [] 1 (fun _ => 0)).colors =
        [(1 : ℚ) / 5, 7 / 20, 2 / 5] := by
      rw [generatePointsFromTremas, sampleRun,
        sampleLoop_step_accept _ _ _ 9 0 0 _ (by norm_num) (by simp [insideAny]),
        sampleLoop_step_stop _ _ _ 8 5 1 _ (by norm_num [accept])]
      norm_num [accept]
    rw [h]
    norm_num)

end Tremas
